import Mathlib

/-!
Verification of the cppfibonacci repository (src/fibonacci.hpp, src/test.cpp),
a C++ Fibonacci-heap library.

The header src/fibonacci.hpp declares the public operations of the class
fibonacci_heap but ships bodies only for a few of them: the initializer-list
constructor (lines 121 to 124), the node-based insert overload (line 233),
top (line 238), the copy constructor (line 137), the copy assignment operator
(lines 158 to 167) and the deep-copy helper duplicate_nodes (lines 84 to 108).
The bodies of insert(K, T), meld, decrease_key, remove() and remove(node) are
only declared.  Where a body is missing, the corresponding Lean definition is
modelled from the accompanying specification (spec.md) and says so in its doc
comment; where a body is present in the header it is embedded from the source.

Keys are taken from an arbitrary linear order, matching the Compare template
parameter (std::less by default, a total order per the specification).
Sibling rings are modelled as lists: the root ring is a list whose head plays
the role of the min pointer, and each child ring is a Forest.  Node identity
(pointer identity of the shared_ptr cells in the C++ source) is modelled by a
natural-number id allocated from a per-heap counter.
-/

mutual
/-- Modelled from the spec, section 3 Data Model: the Node entity of the heap
(the internal_structure plus internal_data pair of the source, whose mutating
operations are absent from the header).  A node carries an identity, a key, a
value, the childcut mark, and its ring of children.  The degree attribute is
represented by the length of the child ring, per invariant 3 (degree accuracy)
of the specification. -/
inductive FTree (K V : Type) : Type where
  | mk (id : Nat) (key : K) (val : V) (mark : Bool) (children : Forest K V)

/-- Modelled from the spec, section 4.2: a sibling ring of trees. -/
inductive Forest (K V : Type) : Type where
  | nil : Forest K V
  | cons (t : FTree K V) (ts : Forest K V) : Forest K V
end

namespace FTree

variable {K V : Type}

def id : FTree K V → Nat
  | .mk i _ _ _ _ => i

def key : FTree K V → K
  | .mk _ k _ _ _ => k

def val : FTree K V → V
  | .mk _ _ v _ _ => v

def mark : FTree K V → Bool
  | .mk _ _ _ m _ => m

def children : FTree K V → Forest K V
  | .mk _ _ _ _ cs => cs

/-- Becoming a root clears the childcut mark (spec, invariant 7 and the Cut
operation of section 4.3). -/
def clearMark : FTree K V → FTree K V
  | .mk i k v _ cs => .mk i k v false cs

end FTree

variable {K V : Type}

/-- Number of direct children of a node (the degree attribute of the spec,
equal to the length of the child ring). -/
def Forest.length : Forest K V → Nat
  | .nil => 0
  | .cons _ ts => Forest.length ts + 1

def FTree.degree (t : FTree K V) : Nat := t.children.length

mutual
/-- Entry list of a tree: one (id, key, value) triple per node, the node first
followed by the entries of its children. -/
def entriesT : FTree K V → List (Nat × K × V)
  | .mk i k v _ cs => (i, k, v) :: entriesF cs

def entriesF : Forest K V → List (Nat × K × V)
  | .nil => []
  | .cons t ts => entriesT t ++ entriesF ts
end

/-- Entry list of a list of trees (used for the root ring). -/
def entriesL : List (FTree K V) → List (Nat × K × V)
  | [] => []
  | t :: ts => entriesT t ++ entriesL ts

def sizeT (t : FTree K V) : Nat := (entriesT t).length

def sizeF (f : Forest K V) : Nat := (entriesF f).length

def sizeL (l : List (FTree K V)) : Nat := (entriesL l).length

mutual
/-- Min-tree property (spec invariant 1): every node key is less than or equal
to the keys of its children, recursively. -/
def heapOrdT [LinearOrder K] : FTree K V → Bool
  | .mk _ k _ _ cs => heapOrdF k cs

def heapOrdF [LinearOrder K] : K → Forest K V → Bool
  | _, .nil => true
  | pk, .cons t ts => decide (pk ≤ t.key) && heapOrdT t && heapOrdF pk ts
end

/-- Modelled from the spec, section 4.4 step 1 of extract_min: promoting a
child ring to the root list clears the marks (parent pointers disappear with
this representation). -/
def promote : Forest K V → List (FTree K V)
  | .nil => []
  | .cons t ts => t.clearMark :: promote ts

/-- Modelled from the spec, section 4.3 Link: with cmp(a.key, b.key) ≤ 0,
remove b from the root list and make it a child of a, clearing the mark of b;
the degree of a grows by one because the child ring grows by one. -/
def link (a b : FTree K V) : FTree K V :=
  .mk a.id a.key a.val a.mark (.cons b.clearMark a.children)

/-- First table entry whose tree has the given degree. -/
def lookupDeg (d : Nat) : List (FTree K V) → Option (FTree K V)
  | [] => none
  | t :: ts => if t.degree = d then some t else lookupDeg d ts

/-- Drop the first table entry whose tree has the given degree. -/
def eraseDeg (d : Nat) : List (FTree K V) → List (FTree K V)
  | [] => []
  | t :: ts => if t.degree = d then ts else t :: eraseDeg d ts

/-- Modelled from the spec, section 4.4 step 5 of extract_min (the bodies of
remove() and remove(node) are absent from the header): place one root into the
degree table, linking while the slot for its degree is occupied.  The winner
of each link is the root with the smaller key; on a tie the root being placed
wins, a deterministic tie break as section 4.4 requires.  Each link consumes
one table entry, so any fuel beyond the table size is enough and the
fuel-exhausted branch is never reached from consolidate. -/
def addTree [LinearOrder K] : Nat → FTree K V → List (FTree K V) → List (FTree K V)
  | 0, t, table => t :: table
  | fuel + 1, t, table =>
    match lookupDeg t.degree table with
    | none => t :: table
    | some u =>
      addTree fuel (if u.key < t.key then link u t else link t u) (eraseDeg t.degree table)

/-- Iterate the captured working list of roots once, per section 4.4 step 5. -/
def consolidate_go [LinearOrder K] : List (FTree K V) → List (FTree K V) → List (FTree K V)
  | [], table => table
  | t :: ts, table => consolidate_go ts (addTree (table.length + 1) t table)

/-- Modelled from the spec, section 4.4 steps 5 and 6 of extract_min:
repeatedly link roots of equal degree until all root degrees are unique. -/
def consolidate [LinearOrder K] (l : List (FTree K V)) : List (FTree K V) :=
  consolidate_go l []

/-- Modelled from the spec, section 4.4 step 6 of extract_min: select the root
with the smallest key (the earlier root wins ties) and bring it to the min
position, returning it with the remaining roots. -/
def extractMinTree [LinearOrder K] :
    List (FTree K V) → Option (FTree K V × List (FTree K V))
  | [] => none
  | t :: ts =>
    match extractMinTree ts with
    | none => some (t, ts)
    | some (m, rest) => if m.key < t.key then some (m, t :: rest) else some (t, ts)

mutual
/-- Modelled from the spec, sections 4.3 and 4.4 (the body of decrease_key is
absent from the header): surgery on one tree.  The arguments are the target
identity, the new key, and the key of the parent of this tree (none at a
root).  The result is none when the target is not in this tree; otherwise it
pairs the replacement for this tree (none when this tree was cut away from the
ring of its parent) with the list of subtrees that the cut and the cascading
cuts promote to the root list.  Cut clears the mark of the cut node; the
cascading cut marks an unmarked non-root parent and stops, and cuts a marked
parent and continues (section 4.3). -/
def dkTree [LinearOrder K] (n : Nat) (k : K) :
    Option K → FTree K V → Option (Option (FTree K V) × List (FTree K V))
  | pk, .mk i tk v m cs =>
    if i = n then
      match pk with
      | none => some (some (.mk i k v m cs), [])
      | some pkey =>
        if k < pkey then some (none, [.mk i k v false cs])
        else some (some (.mk i k v m cs), [])
    else
      match dkForest n k tk cs with
      | none => none
      | some (cs', cuts, lost) =>
        if lost then
          match pk with
          | none => some (some (.mk i tk v m cs'), cuts)
          | some _ =>
            if m then some (none, .mk i tk v false cs' :: cuts)
            else some (some (.mk i tk v true cs'), cuts)
        else some (some (.mk i tk v m cs'), cuts)

/-- Modelled from the spec: decrease_key surgery on a child ring whose parent
holds the given key.  The boolean reports whether this ring lost a member (a
cut of a direct child), which makes the parent run the cascading-cut step. -/
def dkForest [LinearOrder K] (n : Nat) (k : K) :
    K → Forest K V → Option (Forest K V × List (FTree K V) × Bool)
  | _, .nil => none
  | pkey, .cons t ts =>
    match dkTree n k (some pkey) t with
    | some (some t', cuts) => some (.cons t' ts, cuts, false)
    | some (none, cuts) => some (ts, cuts, true)
    | none =>
      match dkForest n k pkey ts with
      | none => none
      | some (ts', cuts, lost) => some (.cons t ts', cuts, lost)
end

/-- Modelled from the spec: decrease_key surgery on the root list.  The tree
holding the target is rewritten in place and the promoted subtrees are added
at the end of the root list. -/
def dkRoots [LinearOrder K] (n : Nat) (k : K) : List (FTree K V) → List (FTree K V)
  | [] => []
  | t :: ts =>
    match dkTree n k none t with
    | none => t :: dkRoots n k ts
    | some (some t', cuts) => t' :: (ts ++ cuts)
    | some (none, cuts) => ts ++ cuts

/-- Root tree with the given identity together with the other roots. -/
def splitAtId (i : Nat) : List (FTree K V) → Option (FTree K V × List (FTree K V))
  | [] => none
  | t :: ts =>
    if t.id = i then some (t, ts)
    else (splitAtId i ts).map (fun p => (p.1, t :: p.2))

/-- Modelled from the spec, section 4.4 (decrease_key): when the decreased key
beats the min key, the min pointer moves to the decreased node; in the list
representation the tree now rooted at that node moves to the head. -/
def promoteId (i : Nat) (l : List (FTree K V)) : List (FTree K V) :=
  match splitAtId i l with
  | none => l
  | some (t, ts) => t :: ts

mutual
/-- Modelled from the spec, section 4.4 (delete, structural variant; the body
of remove(node) is absent from the header): remove the node with the given
identity from a tree.  The result is none when the node is not in the tree;
otherwise it lists the replacement for the tree (none when the tree root
itself was the node), the former children of the node promoted to the root
list, and the key and value the node held. -/
def delT (n : Nat) : FTree K V → Option (Option (FTree K V) × List (FTree K V) × (K × V))
  | .mk i k v m cs =>
    if i = n then some (none, promote cs, (k, v))
    else
      match delF n cs with
      | none => none
      | some (cs', proms, kv) => some (some (.mk i k v m cs'), proms, kv)

/-- Modelled from the spec: delete surgery on a child ring. -/
def delF (n : Nat) : Forest K V → Option (Forest K V × List (FTree K V) × (K × V))
  | .nil => none
  | .cons t ts =>
    match delT n t with
    | some (none, proms, kv) => some (ts, proms, kv)
    | some (some t', proms, kv) => some (.cons t' ts, proms, kv)
    | none =>
      match delF n ts with
      | none => none
      | some (ts', proms, kv) => some (.cons t ts', proms, kv)
end

/-- Modelled from the spec: delete surgery on the root list. -/
def delL (n : Nat) : List (FTree K V) → Option (List (FTree K V) × List (FTree K V) × (K × V))
  | [] => none
  | t :: ts =>
    match delT n t with
    | some (none, proms, kv) => some (ts, proms, kv)
    | some (some t', proms, kv) => some (t' :: ts, proms, kv)
    | none =>
      match delL n ts with
      | none => none
      | some (ts', proms, kv) => some (t :: ts', proms, kv)

/-- Error kinds of spec section 7 that the modelled operations report. -/
inductive FibError : Type where
  | StaleHandle
  | InvalidKey
deriving DecidableEq

/-- Outcome of running source code whose execution is undefined: flowing off
the end of a value-returning function, or dereferencing a null pointer. -/
inductive CppUndef : Type where
  | noReturnPath
  | nullDeref
deriving DecidableEq

/-- The heap object of the source (class fibonacci_heap).  The min pointer and
the root ring are represented together: roots is the root ring read from min,
so the head of the list is the node the min pointer designates.  The field len
is the _size member (line 111 of the header).  The field next is the allocation
counter from which node identities are drawn, standing in for the addresses of
the shared_ptr cells the source allocates. -/
structure fibonacci_heap (K V : Type) : Type where
  roots : List (FTree K V)
  len : Nat
  next : Nat

namespace fibonacci_heap

/-- Embeds the default constructor (line 116 of the header): an empty heap. -/
def emptyHeap : fibonacci_heap K V := ⟨[], 0, 0⟩

/-- Embeds size() (line 210 of the header): return _size. -/
def size (h : fibonacci_heap K V) : Nat := h.len

/-- The node class of the header (lines 175 to 204): an externally held handle.
In the source a node object holds a shared_ptr to the internal_data cell of the
inserted element; here it records the identity of that cell together with the
key and data the cell carried when the handle was produced. -/
structure node (K V : Type) : Type where
  id : Nat
  key : K
  data : V

/-- Key of the node the min pointer designates, none for an empty heap. -/
def minKey (h : fibonacci_heap K V) : Option K := h.roots.head?.map FTree.key

/-- Identities of the nodes of the heap (the addresses a C++ run would compare
handles by). -/
def ids (h : fibonacci_heap K V) : List Nat := (entriesL h.roots).map (fun e => e.1)

/-- Key and value pairs stored in the heap. -/
def kvs (h : fibonacci_heap K V) : List (K × V) := (entriesL h.roots).map (fun e => e.2)

/-- Key currently stored at the node with the given identity, none when no such
node is in the heap (for this heap the handle is stale). -/
def getKey (h : fibonacci_heap K V) (i : Nat) : Option K :=
  ((entriesL h.roots).find? (fun e => e.1 == i)).map (fun e => e.2.1)

/-- Modelled from the spec: the body of insert(K, T) is only declared in the
header (line 218).  Section 4.4: allocate a fresh node with degree 0, unmarked,
no children, no parent; splice it into the root list; if min is none or
cmp(new.key, min.key) < 0 update min to the new node; increment len; return the
handle.  The fresh node takes the next identity from the allocation counter,
standing in for the fresh address the source obtains from make_shared. -/
def insert [LinearOrder K] (h : fibonacci_heap K V) (k : K) (v : V) :
    node K V × fibonacci_heap K V :=
  let t : FTree K V := .mk h.next k v false .nil
  let roots : List (FTree K V) :=
    match h.roots with
    | [] => [t]
    | m :: rest => if k < m.key then t :: m :: rest else m :: t :: rest
  (⟨h.next, k, v⟩, ⟨roots, h.len + 1, h.next + 1⟩)

/-- Embeds insert(node) (line 233 of the header): the body is
return insert(n.key(), n.data()). -/
def insert_node [LinearOrder K] (h : fibonacci_heap K V) (n : node K V) :
    node K V × fibonacci_heap K V :=
  insert h n.key n.data

/-- Embeds the loop of the initializer-list constructor (lines 121 to 124 of
the header): for each pair of the list in order, insert it. -/
def ctor_loop [LinearOrder K] : List (K × V) → fibonacci_heap K V → fibonacci_heap K V
  | [], h => h
  | kv :: rest, h => ctor_loop rest (insert h kv.1 kv.2).2

/-- Embeds the initializer-list constructor (lines 121 to 124 of the header):
start from the default-constructed empty heap and run the insertion loop. -/
def ofList [LinearOrder K] (l : List (K × V)) : fibonacci_heap K V :=
  ctor_loop l emptyHeap

/-- Follows the words of the spec, section 6 Constructors: construct empty,
then insert each pair in sequence.  Stated separately from ofList so that the
constructor embedded from the source can be compared against it. -/
def insertList [LinearOrder K] (l : List (K × V)) : fibonacci_heap K V :=
  l.foldl (fun h kv => (insert h kv.1 kv.2).2) emptyHeap

/-- Embeds top() (line 238 of the header): the body is return node(min).  The
private node constructor (line 185) evaluates internal->data on the pointer it
is given; when the heap is empty, min is the null pointer and that evaluation
dereferences null, which is undefined; otherwise the handle to the min node is
produced. -/
def top (h : fibonacci_heap K V) : Except CppUndef (node K V) :=
  match h.roots with
  | [] => .error .nullDeref
  | t :: _ => .ok ⟨t.id, t.key, t.val⟩

/-- Modelled from the spec: the body of meld is only declared in the header
(line 243).  Section 4.4: splice the root ring of the other heap into this
root ring; set min to whichever of the two previous minima has the smaller key
(on a tie this heap keeps its min); add other.len to len; the other heap
becomes empty, and the handles that were held into it become handles into this
heap.  The result pairs the updated heap with the emptied other heap. -/
def meld [LinearOrder K] (h g : fibonacci_heap K V) :
    fibonacci_heap K V × fibonacci_heap K V :=
  let roots : List (FTree K V) :=
    match h.roots, g.roots with
    | [], gr => gr
    | hr, [] => hr
    | hm :: hr, gm :: gr =>
      if gm.key < hm.key then gm :: (gr ++ hm :: hr) else hm :: (hr ++ gm :: gr)
  (⟨roots, h.len + g.len, max h.next g.next⟩, ⟨[], 0, g.next⟩)

/-- Modelled from the spec: the body of remove() is only declared in the
header (line 255).  Section 4.4 extract_min: if the heap is empty return none;
otherwise take the min root z, splice its children into the root list with
marks cleared, remove z, decrement len and, if the heap became empty, clear
min; otherwise consolidate the captured root list and point min at the root
with the smallest key.  The key and value of z are returned with the updated
heap. -/
def remove [LinearOrder K] (h : fibonacci_heap K V) :
    Option ((K × V) × fibonacci_heap K V) :=
  match h.roots with
  | [] => none
  | z :: rest =>
    if h.len - 1 = 0 then some ((z.key, z.val), ⟨[], 0, h.next⟩)
    else
      match extractMinTree (consolidate (rest ++ promote z.children)) with
      | none => some ((z.key, z.val), ⟨[], h.len - 1, h.next⟩)
      | some (m, rest') => some ((z.key, z.val), ⟨m :: rest', h.len - 1, h.next⟩)

/-- Modelled from the spec: the body of decrease_key is only declared in the
header (line 250).  Sections 4.4 and 7: through a handle whose node has been
removed the operation reports StaleHandle and leaves the heap unchanged; with
cmp(new_key, h.key) > 0, a worsening key, it reports InvalidKey and leaves the
heap unchanged; otherwise it stores the new key, cuts the node and runs the
cascading cut when the new key beats the parent key, and moves min to the node
when the new key beats the min key. -/
def decrease_key [LinearOrder K] (h : fibonacci_heap K V) (n : node K V) (k : K) :
    Except FibError Unit × fibonacci_heap K V :=
  match getKey h n.id with
  | none => (.error .StaleHandle, h)
  | some k0 =>
    if k0 < k then (.error .InvalidKey, h)
    else
      let roots := dkRoots n.id k h.roots
      let roots' :=
        match roots with
        | [] => ([] : List (FTree K V))
        | m :: _ => if k < m.key then promoteId n.id roots else roots
      (.ok (), ⟨roots', h.len, h.next⟩)

/-- Modelled from the spec: the body of remove(node) is only declared in the
header (line 261).  Sections 4.4 (delete, structural variant) and 7: through a
handle whose node has been removed the operation reports StaleHandle and
leaves the heap unchanged; otherwise the node is spliced out, its children are
promoted to roots, the root list is consolidated with min pointing at the
smallest root, len decreases by one and the removed node object is returned. -/
def remove_node [LinearOrder K] (h : fibonacci_heap K V) (n : node K V) :
    Except FibError (node K V) × fibonacci_heap K V :=
  match delL n.id h.roots with
  | none => (.error .StaleHandle, h)
  | some (rem, proms, _) =>
    match extractMinTree (consolidate (rem ++ proms)) with
    | none => (.ok n, ⟨[], h.len - 1, h.next⟩)
    | some (m, rest) => (.ok n, ⟨m :: rest, h.len - 1, h.next⟩)

/-- Repeated extract_min with explicit fuel. -/
def drain [LinearOrder K] : Nat → fibonacci_heap K V → List (K × V)
  | 0, _ => []
  | fuel + 1, h =>
    match remove h with
    | none => []
    | some (kv, h') => kv :: drain fuel h'

/-- Extract every element by repeated extract_min; the stored length bounds
the number of extractions, and under the size invariant it is exact. -/
def extractAll [LinearOrder K] (h : fibonacci_heap K V) : List (K × V) :=
  drain h.len h

/-- Embeds duplicate_nodes (lines 84 to 108 of the header).  The function
returns nullptr when root equals head (line 85); on every other path it copies
the node, splices it into the new ring, recurses into siblings and children,
fixes the parent pointer of the new child (line 107) and then reaches the
closing brace of this value-returning function with no return statement, so
every such execution has undefined behavior.  Pointers are rendered as
optional node identities. -/
def duplicate_nodes (root head : Option Nat) : Except CppUndef (Option Nat) :=
  if root = head then .ok none else .error .noReturnPath

/-- Embeds the copy constructor (line 137 of the header): the new heap copies
_size from the old heap and initializes min with duplicate_nodes(old.min,
nullptr, nullptr).  For an empty old heap duplicate_nodes returns nullptr and
the copy is an empty heap carrying the copied size; for a non-empty old heap
the call runs into the missing return of duplicate_nodes, so the construction
is undefined. -/
def copy_ctor (h : fibonacci_heap K V) : Except CppUndef (fibonacci_heap K V) :=
  match duplicate_nodes (h.roots.head?.map FTree.id) none with
  | .ok _ => .ok ⟨[], h.len, 0⟩
  | .error e => .error e

/-- Embeds the copy assignment operator (lines 158 to 167 of the header)
applied to the heap itself, the self-assignment h = h.  When min is not null
the operator first runs the destructor clean-up (which sets
min->right_sibling to null, breaking the very root ring that the aliased
argument old still designates) and then calls duplicate_nodes(old.min,
nullptr, nullptr); old.min is not null, so this call both walks the broken
ring and runs into the missing return of duplicate_nodes, and the assignment
is undefined.  When min is null the operator copies _size (which is 0) and
the null min, leaving the heap unchanged. -/
def operator_assign_self (h : fibonacci_heap K V) : Except CppUndef (fibonacci_heap K V) :=
  match h.roots with
  | [] => .ok ⟨[], h.len, h.next⟩
  | _ :: _ => .error .noReturnPath

/-- The stored length agrees with the number of nodes reachable from the root
list (spec invariant 6; the count_nodes check of src/test.cpp lines 101 to
110 asserts the same equality). -/
def sizeInv (h : fibonacci_heap K V) : Prop := h.len = sizeL h.roots

/-- Well-formedness of the forest: every root tree has the min-tree property
and the head of the root list (the node the min pointer designates) carries a
key less than or equal to the key of every root. -/
def rootsWF [LinearOrder K] (h : fibonacci_heap K V) : Prop :=
  (∀ t ∈ h.roots, heapOrdT t = true) ∧
  (∀ m ∈ h.roots.head?, ∀ t ∈ h.roots, m.key ≤ t.key)

end fibonacci_heap

/-- Size of an optional tree, used to state the surgery size lemmas. -/
def sizeOpt : Option (FTree K V) → Nat
  | none => 0
  | some t => sizeT t

/-- Entries of an optional tree, used to state the surgery entry lemmas. -/
def entriesOpt : Option (FTree K V) → List (Nat × K × V)
  | none => []
  | some t => entriesT t

section TreeLemmas

variable {K V : Type}

@[simp] theorem FTree.id_mk (i : Nat) (k : K) (v : V) (m : Bool) (cs : Forest K V) :
    (FTree.mk i k v m cs).id = i := rfl

@[simp] theorem FTree.key_mk (i : Nat) (k : K) (v : V) (m : Bool) (cs : Forest K V) :
    (FTree.mk i k v m cs).key = k := rfl

@[simp] theorem FTree.val_mk (i : Nat) (k : K) (v : V) (m : Bool) (cs : Forest K V) :
    (FTree.mk i k v m cs).val = v := rfl

@[simp] theorem FTree.mark_mk (i : Nat) (k : K) (v : V) (m : Bool) (cs : Forest K V) :
    (FTree.mk i k v m cs).mark = m := rfl

@[simp] theorem FTree.children_mk (i : Nat) (k : K) (v : V) (m : Bool) (cs : Forest K V) :
    (FTree.mk i k v m cs).children = cs := rfl

@[simp] theorem FTree.clearMark_mk (i : Nat) (k : K) (v : V) (m : Bool) (cs : Forest K V) :
    (FTree.mk i k v m cs).clearMark = FTree.mk i k v false cs := rfl

@[simp] theorem FTree.key_clearMark (t : FTree K V) : t.clearMark.key = t.key := by
  cases t; rfl

@[simp] theorem FTree.id_clearMark (t : FTree K V) : t.clearMark.id = t.id := by
  cases t; rfl

@[simp] theorem entriesT_mk (i : Nat) (k : K) (v : V) (m : Bool) (cs : Forest K V) :
    entriesT (FTree.mk i k v m cs) = (i, k, v) :: entriesF cs := rfl

@[simp] theorem entriesF_nil : entriesF (Forest.nil : Forest K V) = [] := rfl

@[simp] theorem entriesF_cons (t : FTree K V) (ts : Forest K V) :
    entriesF (Forest.cons t ts) = entriesT t ++ entriesF ts := rfl

@[simp] theorem entriesL_nil : entriesL ([] : List (FTree K V)) = [] := rfl

@[simp] theorem entriesL_cons (t : FTree K V) (ts : List (FTree K V)) :
    entriesL (t :: ts) = entriesT t ++ entriesL ts := rfl

@[simp] theorem entriesL_append (l₁ l₂ : List (FTree K V)) :
    entriesL (l₁ ++ l₂) = entriesL l₁ ++ entriesL l₂ := by
  induction l₁ with
  | nil => simp
  | cons t ts ih => simp [ih]

@[simp] theorem entriesT_clearMark (t : FTree K V) :
    entriesT t.clearMark = entriesT t := by
  cases t; rfl

@[simp] theorem entriesL_promote (f : Forest K V) :
    entriesL (promote f) = entriesF f := by
  match f with
  | .nil => rfl
  | .cons t ts => simp [promote, entriesL_promote ts]

theorem entriesT_ne_nil (t : FTree K V) : entriesT t ≠ [] := by
  cases t; simp

theorem sizeT_pos (t : FTree K V) : 1 ≤ sizeT t := by
  cases t with
  | mk i k v m cs => simp [sizeT]

theorem sizeL_eq_zero {l : List (FTree K V)} (h : sizeL l = 0) : l = [] := by
  cases l with
  | nil => rfl
  | cons t ts =>
    exfalso
    have := sizeT_pos t
    simp [sizeL, sizeT] at h this
    exact absurd h.1 (entriesT_ne_nil t)

theorem entriesL_perm {l l' : List (FTree K V)} (p : l.Perm l') :
    (entriesL l).Perm (entriesL l') := by
  induction p with
  | nil => rfl
  | cons x _ ih => simpa using ih.append_left (entriesT x)
  | swap x y l =>
    simp only [entriesL_cons, ← List.append_assoc]
    exact (List.perm_append_comm).append_right _
  | trans _ _ ih₁ ih₂ => exact ih₁.trans ih₂

end TreeLemmas

section OrderLemmas

variable {K V : Type} [LinearOrder K]

@[simp] theorem heapOrdT_mk (i : Nat) (k : K) (v : V) (m : Bool) (cs : Forest K V) :
    heapOrdT (FTree.mk i k v m cs) = heapOrdF k cs := rfl

@[simp] theorem heapOrdF_nil (pk : K) : heapOrdF pk (Forest.nil : Forest K V) = true := rfl

@[simp] theorem heapOrdF_cons (pk : K) (t : FTree K V) (ts : Forest K V) :
    heapOrdF pk (Forest.cons t ts) =
      (decide (pk ≤ t.key) && heapOrdT t && heapOrdF pk ts) := rfl

@[simp] theorem heapOrdT_clearMark (t : FTree K V) :
    heapOrdT t.clearMark = heapOrdT t := by
  cases t; rfl

mutual
theorem heapOrdT_entries (t : FTree K V) (ht : heapOrdT t = true) :
    ∀ e ∈ entriesT t, t.key ≤ e.2.1 := by
  match t with
  | .mk i k v m cs =>
    intro e he
    simp only [entriesT_mk, List.mem_cons] at he
    rcases he with rfl | he
    · exact le_refl _
    · exact heapOrdF_entries cs k (by simpa using ht) e he

theorem heapOrdF_entries (f : Forest K V) (pk : K) (hf : heapOrdF pk f = true) :
    ∀ e ∈ entriesF f, pk ≤ e.2.1 := by
  match f with
  | .nil => intro e he; simp at he
  | .cons t ts =>
    intro e he
    simp only [heapOrdF_cons, Bool.and_eq_true, decide_eq_true_eq] at hf
    simp only [entriesF_cons, List.mem_append] at he
    rcases he with he | he
    · exact le_trans hf.1.1 (heapOrdT_entries t hf.1.2 e he)
    · exact heapOrdF_entries ts pk hf.2 e he
end

theorem heapOrdF_promote (f : Forest K V) (pk : K) (hf : heapOrdF pk f = true) :
    ∀ x ∈ promote f, heapOrdT x = true := by
  match f with
  | .nil => intro x hx; simp [promote] at hx
  | .cons t ts =>
    intro x hx
    simp only [heapOrdF_cons, Bool.and_eq_true] at hf
    simp only [promote, List.mem_cons] at hx
    rcases hx with rfl | hx
    · simpa using hf.1.2
    · exact heapOrdF_promote ts pk hf.2 x hx

theorem heapOrdT_link {a b : FTree K V} (ha : heapOrdT a = true)
    (hb : heapOrdT b = true) (hab : a.key ≤ b.key) :
    heapOrdT (link a b) = true := by
  cases a with
  | mk i k v m cs =>
    simp only [link, FTree.key_mk] at hab ⊢
    simp only [FTree.id_mk, FTree.key_mk, FTree.val_mk, FTree.mark_mk,
      FTree.children_mk, heapOrdT_mk, heapOrdF_cons, Bool.and_eq_true,
      decide_eq_true_eq, FTree.key_clearMark, heapOrdT_clearMark]
    exact ⟨⟨hab, hb⟩, by simpa using ha⟩

theorem lookupDeg_mem {d : Nat} {tab : List (FTree K V)} {u : FTree K V}
    (h : lookupDeg d tab = some u) : u ∈ tab := by
  induction tab with
  | nil => simp [lookupDeg] at h
  | cons t ts ih =>
    by_cases hc : t.degree = d
    · simp [lookupDeg, hc] at h; simp [h]
    · simp only [lookupDeg, hc, if_false] at h
      exact List.mem_cons_of_mem _ (ih h)

theorem eraseDeg_subset {d : Nat} {tab : List (FTree K V)} :
    ∀ x ∈ eraseDeg d tab, x ∈ tab := by
  induction tab with
  | nil => intro x hx; simp [eraseDeg] at hx
  | cons t ts ih =>
    intro x hx
    by_cases hc : t.degree = d
    · simp only [eraseDeg, hc, if_true] at hx
      exact List.mem_cons_of_mem _ hx
    · simp only [eraseDeg, hc, if_false, List.mem_cons] at hx
      rcases hx with rfl | hx
      · exact List.mem_cons_self _ _
      · exact List.mem_cons_of_mem _ (ih x hx)

theorem lookupDeg_perm {d : Nat} {tab : List (FTree K V)} {u : FTree K V}
    (h : lookupDeg d tab = some u) : tab.Perm (u :: eraseDeg d tab) := by
  induction tab with
  | nil => simp [lookupDeg] at h
  | cons t ts ih =>
    by_cases hc : t.degree = d
    · simp only [lookupDeg, hc, if_true, Option.some.injEq] at h
      subst h
      simp [eraseDeg, hc]
    · simp only [lookupDeg, hc, if_false] at h
      simp only [eraseDeg, hc, if_false]
      exact ((ih h).cons t).trans (List.Perm.swap u t _)

theorem addTree_entries (fuel : Nat) (t : FTree K V) (tab : List (FTree K V)) :
    (entriesL (addTree fuel t tab)).Perm (entriesT t ++ entriesL tab) := by
  induction fuel generalizing t tab with
  | zero => simp [addTree]
  | succ fuel ih =>
    simp only [addTree]
    cases hl : lookupDeg t.degree tab with
    | none => simp
    | some u =>
      have hperm : (entriesL tab).Perm (entriesT u ++ entriesL (eraseDeg t.degree tab)) :=
        by simpa using entriesL_perm (lookupDeg_perm hl)
      have hlink : ∀ a b : FTree K V,
          (entriesT (link a b)).Perm (entriesT a ++ entriesT b) := by
        intro a b
        cases a with
        | mk i k v m cs =>
          simp only [link, entriesT_mk, entriesT_clearMark, FTree.id_mk, FTree.key_mk,
            FTree.val_mk, FTree.mark_mk, FTree.children_mk, entriesF_cons]
          refine (List.Perm.cons _ List.perm_append_comm).trans ?_
          simp
      refine (ih _ _).trans ?_
      by_cases hk : u.key < t.key
      · simp only [hk, if_true]
        refine ((hlink u t).append_right _).trans ?_
        refine (List.perm_append_comm.append_right _).trans ?_
        simp only [List.append_assoc]
        exact List.Perm.append_left _ hperm.symm
      · simp only [hk, if_false]
        refine ((hlink t u).append_right _).trans ?_
        simp only [List.append_assoc]
        exact List.Perm.append_left _ hperm.symm

theorem addTree_heapOrd (fuel : Nat) (t : FTree K V) (tab : List (FTree K V))
    (ht : heapOrdT t = true) (htab : ∀ u ∈ tab, heapOrdT u = true) :
    ∀ x ∈ addTree fuel t tab, heapOrdT x = true := by
  induction fuel generalizing t tab with
  | zero =>
    intro x hx
    simp only [addTree, List.mem_cons] at hx
    rcases hx with rfl | hx
    · exact ht
    · exact htab x hx
  | succ fuel ih =>
    intro x hx
    simp only [addTree] at hx
    cases hl : lookupDeg t.degree tab with
    | none =>
      simp only [hl, List.mem_cons] at hx
      rcases hx with rfl | hx
      · exact ht
      · exact htab x hx
    | some u =>
      simp only [hl] at hx
      have hu : heapOrdT u = true := htab u (lookupDeg_mem hl)
      have herase : ∀ y ∈ eraseDeg t.degree tab, heapOrdT y = true :=
        fun y hy => htab y (eraseDeg_subset y hy)
      by_cases hk : u.key < t.key
      · simp only [hk, if_true] at hx
        exact ih _ _ (heapOrdT_link hu ht (le_of_lt hk)) herase x hx
      · simp only [hk, if_false] at hx
        exact ih _ _ (heapOrdT_link ht hu (le_of_not_lt hk)) herase x hx

theorem consolidate_go_entries (l tab : List (FTree K V)) :
    (entriesL (consolidate_go l tab)).Perm (entriesL l ++ entriesL tab) := by
  induction l generalizing tab with
  | nil => simp [consolidate_go]
  | cons t ts ih =>
    simp only [consolidate_go, entriesL_cons]
    refine (ih _).trans ?_
    refine (List.Perm.append_left _ (addTree_entries _ _ _)).trans ?_
    simp only [← List.append_assoc]
    exact (List.perm_append_comm).append_right _

theorem consolidate_go_heapOrd (l : List (FTree K V)) :
    ∀ tab, (∀ x ∈ l, heapOrdT x = true) → (∀ x ∈ tab, heapOrdT x = true) →
      ∀ x ∈ consolidate_go l tab, heapOrdT x = true := by
  induction l with
  | nil =>
    intro tab _ htab
    simpa [consolidate_go] using htab
  | cons t ts ih =>
    intro tab hl htab
    simp only [consolidate_go]
    exact ih _ (fun x hx => hl x (List.mem_cons_of_mem _ hx))
      (addTree_heapOrd _ _ _ (hl t (List.mem_cons_self _ _)) htab)

theorem consolidate_entries (l : List (FTree K V)) :
    (entriesL (consolidate l)).Perm (entriesL l) := by
  simpa using consolidate_go_entries l []

theorem consolidate_heapOrd (l : List (FTree K V))
    (hl : ∀ x ∈ l, heapOrdT x = true) :
    ∀ x ∈ consolidate l, heapOrdT x = true := by
  refine consolidate_go_heapOrd l [] hl ?_
  intro x hx
  simp at hx

theorem extractMinTree_eq_none {l : List (FTree K V)} :
    extractMinTree l = none ↔ l = [] := by
  cases l with
  | nil => simp [extractMinTree]
  | cons t ts =>
    simp only [extractMinTree]
    cases h : extractMinTree ts with
    | none => simp
    | some p =>
      obtain ⟨m, rest⟩ := p
      by_cases hk : m.key < t.key <;> simp [hk]

theorem extractMinTree_perm {l : List (FTree K V)} {m : FTree K V}
    {rest : List (FTree K V)} (h : extractMinTree l = some (m, rest)) :
    (m :: rest).Perm l := by
  induction l generalizing m rest with
  | nil => simp [extractMinTree] at h
  | cons t ts ih =>
    simp only [extractMinTree] at h
    cases he : extractMinTree ts with
    | none =>
      rw [he] at h
      obtain rfl : ts = [] := extractMinTree_eq_none.mp he
      simp only [Option.some.injEq, Prod.mk.injEq] at h
      obtain ⟨rfl, rfl⟩ := h
      exact List.Perm.refl _
    | some p =>
      obtain ⟨m', rest'⟩ := p
      rw [he] at h
      by_cases hk : m'.key < t.key
      · simp only [hk, if_true, Option.some.injEq, Prod.mk.injEq] at h
        obtain ⟨rfl, rfl⟩ := h
        exact (List.Perm.swap t m' rest').trans ((ih he).cons t)
      · simp only [hk, if_false, Option.some.injEq, Prod.mk.injEq] at h
        obtain ⟨rfl, rfl⟩ := h
        exact List.Perm.refl _

theorem extractMinTree_min {l : List (FTree K V)} {m : FTree K V}
    {rest : List (FTree K V)} (h : extractMinTree l = some (m, rest)) :
    ∀ t ∈ l, m.key ≤ t.key := by
  induction l generalizing m rest with
  | nil => simp [extractMinTree] at h
  | cons t ts ih =>
    simp only [extractMinTree] at h
    cases he : extractMinTree ts with
    | none =>
      rw [he] at h
      obtain rfl : ts = [] := extractMinTree_eq_none.mp he
      simp only [Option.some.injEq, Prod.mk.injEq] at h
      obtain ⟨rfl, rfl⟩ := h
      intro u hu
      simp only [List.mem_singleton] at hu
      subst hu
      exact le_refl _
    | some p =>
      obtain ⟨m', rest'⟩ := p
      rw [he] at h
      by_cases hk : m'.key < t.key
      · simp only [hk, if_true, Option.some.injEq, Prod.mk.injEq] at h
        obtain ⟨rfl, rfl⟩ := h
        intro u hu
        rcases List.mem_cons.mp hu with rfl | hu
        · exact le_of_lt hk
        · exact ih he u hu
      · simp only [hk, if_false, Option.some.injEq, Prod.mk.injEq] at h
        obtain ⟨rfl, rfl⟩ := h
        intro u hu
        rcases List.mem_cons.mp hu with rfl | hu
        · exact le_refl _
        · exact le_trans (le_of_not_lt hk) (ih he u hu)

end OrderLemmas

section HeapLemmas

variable {K V : Type}

theorem entriesT_expand (t : FTree K V) :
    entriesT t = (t.id, t.key, t.val) :: entriesF t.children := by
  cases t; rfl

theorem mem_entriesL {e : Nat × K × V} {l : List (FTree K V)} :
    e ∈ entriesL l ↔ ∃ t ∈ l, e ∈ entriesT t := by
  induction l with
  | nil => simp
  | cons t ts ih =>
    simp only [entriesL_cons, List.mem_append, ih, List.mem_cons]
    constructor
    · rintro (he | ⟨u, hu, he⟩)
      · exact ⟨t, Or.inl rfl, he⟩
      · exact ⟨u, Or.inr hu, he⟩
    · rintro ⟨u, (rfl | hu), he⟩
      · exact Or.inl he
      · exact Or.inr ⟨u, hu, he⟩

namespace fibonacci_heap

variable [LinearOrder K]

@[simp] theorem roots_mk (r : List (FTree K V)) (n x : Nat) :
    (fibonacci_heap.mk r n x).roots = r := rfl

@[simp] theorem len_mk (r : List (FTree K V)) (n x : Nat) :
    (fibonacci_heap.mk r n x).len = n := rfl

@[simp] theorem next_mk (r : List (FTree K V)) (n x : Nat) :
    (fibonacci_heap.mk r n x).next = x := rfl

@[simp] theorem emptyHeap_roots : (emptyHeap : fibonacci_heap K V).roots = [] := rfl

@[simp] theorem emptyHeap_len : (emptyHeap : fibonacci_heap K V).len = 0 := rfl

theorem emptyHeap_rootsWF : rootsWF (emptyHeap : fibonacci_heap K V) := by
  constructor <;> simp [emptyHeap, rootsWF]

theorem emptyHeap_sizeInv : sizeInv (emptyHeap : fibonacci_heap K V) := by
  simp [emptyHeap, sizeInv, sizeL]

theorem insert_snd_len (h : fibonacci_heap K V) (k : K) (v : V) :
    (insert h k v).2.len = h.len + 1 := rfl

theorem insert_snd_next (h : fibonacci_heap K V) (k : K) (v : V) :
    (insert h k v).2.next = h.next + 1 := rfl

theorem insert_fst (h : fibonacci_heap K V) (k : K) (v : V) :
    (insert h k v).1 = ⟨h.next, k, v⟩ := rfl

theorem insert_entries (h : fibonacci_heap K V) (k : K) (v : V) :
    (entriesL (insert h k v).2.roots).Perm ((h.next, k, v) :: entriesL h.roots) := by
  cases hr : h.roots with
  | nil => simp [insert, hr]
  | cons m rest =>
    by_cases hk : k < m.key
    · simp [insert, hr, hk]
    · simp only [insert, hr, hk, if_false, roots_mk, entriesL_cons]
      rw [entriesT_expand (FTree.mk h.next k v false Forest.nil)]
      simp only [FTree.id_mk, FTree.key_mk, FTree.val_mk, FTree.children_mk,
        entriesF_nil, entriesL_cons, List.singleton_append]
      exact List.perm_middle

theorem insert_rootsWF {h : fibonacci_heap K V} (hWF : rootsWF h) (k : K) (v : V) :
    rootsWF (insert h k v).2 := by
  obtain ⟨hord, hmin⟩ := hWF
  cases hr : h.roots with
  | nil =>
    constructor
    · intro t ht
      simp only [insert, hr, roots_mk, List.mem_singleton] at ht
      subst ht
      simp
    · intro m hm t ht
      simp only [insert, hr, roots_mk, List.head?_cons, Option.mem_def,
        Option.some.injEq] at hm
      simp only [insert, hr, roots_mk, List.mem_singleton] at ht
      subst hm; subst ht
      exact le_refl _
  | cons m rest =>
    have hordm : ∀ t ∈ h.roots, heapOrdT t = true := hord
    have hminm : ∀ t ∈ h.roots, m.key ≤ t.key := by
      intro t ht
      exact hmin m (by simp [hr]) t ht
    by_cases hk : k < m.key
    · constructor
      · intro t ht
        simp only [insert, hr, hk, if_true, roots_mk, List.mem_cons] at ht
        rcases ht with rfl | ht
        · simp
        · exact hordm t (by rw [hr]; exact List.mem_cons.mpr ht)
      · intro mh hmh t ht
        simp only [insert, hr, hk, if_true, roots_mk, List.head?_cons,
          Option.mem_def, Option.some.injEq] at hmh
        subst hmh
        simp only [insert, hr, hk, if_true, roots_mk, List.mem_cons] at ht
        simp only [FTree.key_mk]
        rcases ht with rfl | ht
        · simp
        · exact le_trans (le_of_lt hk) (hminm t (by rw [hr]; exact List.mem_cons.mpr ht))
    · constructor
      · intro t ht
        simp only [insert, hr, hk, if_false, roots_mk, List.mem_cons] at ht
        rcases ht with rfl | rfl | ht
        · exact hordm t (by simp [hr])
        · simp
        · exact hordm t (by rw [hr]; exact List.mem_cons_of_mem _ ht)
      · intro mh hmh t ht
        simp only [insert, hr, hk, if_false, roots_mk, List.head?_cons,
          Option.mem_def, Option.some.injEq] at hmh
        subst hmh
        simp only [insert, hr, hk, if_false, roots_mk, List.mem_cons] at ht
        rcases ht with rfl | rfl | ht
        · exact le_refl _
        · simpa using le_of_not_lt hk
        · exact hminm t (by rw [hr]; exact List.mem_cons_of_mem _ ht)

theorem insert_sizeInv {h : fibonacci_heap K V} (hSz : sizeInv h) (k : K) (v : V) :
    sizeInv (insert h k v).2 := by
  have hlen := (insert_entries h k v).length_eq
  simp only [sizeInv, sizeL] at hSz ⊢
  rw [insert_snd_len, hlen]
  simp [hSz]

theorem remove_spec {h : fibonacci_heap K V} {z : FTree K V} {rest : List (FTree K V)}
    (hWF : rootsWF h) (hSz : sizeInv h) (hr : h.roots = z :: rest) :
    ∃ h', remove h = some ((z.key, z.val), h') ∧
      (entriesL h'.roots).Perm (entriesL rest ++ entriesF z.children) ∧
      rootsWF h' ∧ sizeInv h' ∧ h'.len = h.len - 1 ∧ h'.next = h.next := by
  have hsz : h.len = (sizeF z.children + sizeL rest) + 1 := by
    simp only [sizeInv, sizeL] at hSz
    rw [hSz, hr]
    simp only [entriesL_cons, List.length_append, entriesT_expand z,
      List.length_cons]
    simp only [sizeF, sizeL]
    omega
  by_cases h0 : h.len - 1 = 0
  · have hz : sizeF z.children = 0 ∧ sizeL rest = 0 := by omega
    have hch : entriesF z.children = [] :=
      List.length_eq_zero.mp hz.1
    have hrest : entriesL rest = [] :=
      List.length_eq_zero.mp hz.2
    refine ⟨⟨[], 0, h.next⟩, ?_, ?_, ?_, ?_, ?_, rfl⟩
    · simp [remove, hr, h0]
    · simp [hch, hrest]
    · constructor <;> simp [rootsWF]
    · simp [sizeInv, sizeL]
    · simp only [len_mk]
      omega
  · have hzord : heapOrdT z = true := hWF.1 z (by simp [hr])
    have hzch : heapOrdF z.key z.children = true := by
      cases z
      simpa using hzord
    have hordw : ∀ x ∈ rest ++ promote z.children, heapOrdT x = true := by
      intro x hx
      rcases List.mem_append.mp hx with hx | hx
      · exact hWF.1 x (by rw [hr]; exact List.mem_cons_of_mem _ hx)
      · exact heapOrdF_promote z.children z.key hzch x hx
    have hworking : entriesL (rest ++ promote z.children) =
        entriesL rest ++ entriesF z.children := by
      simp
    have hwlen : (entriesL (rest ++ promote z.children)).length = h.len - 1 := by
      rw [hworking]
      simp only [List.length_append]
      simp only [sizeF, sizeL] at hsz
      omega
    have hne : consolidate (rest ++ promote z.children) ≠ [] := by
      intro hcon
      have hp := consolidate_entries (rest ++ promote z.children)
      rw [hcon] at hp
      have hnil : entriesL (rest ++ promote z.children) = [] := hp.symm.eq_nil
      rw [hnil] at hwlen
      simp at hwlen
      omega
    cases hext : extractMinTree (consolidate (rest ++ promote z.children)) with
    | none => exact absurd (extractMinTree_eq_none.mp hext) hne
    | some p =>
      obtain ⟨m, rest'⟩ := p
      have hpermc : (m :: rest').Perm (consolidate (rest ++ promote z.children)) :=
        extractMinTree_perm hext
      have hperme : (entriesL (m :: rest')).Perm
          (entriesL rest ++ entriesF z.children) := by
        refine (entriesL_perm hpermc).trans ?_
        rw [← hworking]
        exact consolidate_entries _
      refine ⟨⟨m :: rest', h.len - 1, h.next⟩, ?_, ?_, ?_, ?_, rfl, rfl⟩
      · simp [remove, hr, h0, hext]
      · simpa using hperme
      · have hordc := consolidate_heapOrd _ hordw
        constructor
        · intro t ht
          simp only [roots_mk] at ht
          exact hordc t (hpermc.subset ht)
        · intro mh hmh t ht
          simp only [roots_mk, List.head?_cons, Option.mem_def,
            Option.some.injEq] at hmh
          subst hmh
          simp only [roots_mk] at ht
          exact extractMinTree_min hext t (hpermc.subset ht)
      · simp only [sizeInv, sizeL, roots_mk, len_mk]
        rw [hperme.length_eq, ← hworking, hwlen]

theorem rootsWF_head_le {h : fibonacci_heap K V} {z : FTree K V}
    {rest : List (FTree K V)} (hWF : rootsWF h) (hr : h.roots = z :: rest) :
    ∀ e ∈ entriesL h.roots, z.key ≤ e.2.1 := by
  intro e he
  obtain ⟨t, htmem, hte⟩ := mem_entriesL.mp he
  have h1 : z.key ≤ t.key := hWF.2 z (by simp [hr]) t htmem
  exact le_trans h1 (heapOrdT_entries t (hWF.1 t htmem) e hte)

theorem drain_spec : ∀ (fuel : Nat) (h : fibonacci_heap K V), rootsWF h →
    sizeInv h → h.len = fuel →
    (drain fuel h).Perm (kvs h) ∧
      List.Sorted (fun a b : K => a ≤ b) ((drain fuel h).map Prod.fst) := by
  intro fuel
  induction fuel with
  | zero =>
    intro h _ hSz hlen
    have hnil : entriesL h.roots = [] := by
      have hz : sizeL h.roots = 0 := by rw [← hSz, hlen]
      exact List.length_eq_zero.mp hz
    simp [drain, kvs, hnil]
  | succ fuel ih =>
    intro h hWF hSz hlen
    cases hr : h.roots with
    | nil =>
      exfalso
      simp only [sizeInv, hr, sizeL, entriesL_nil, List.length_nil] at hSz
      omega
    | cons z rest =>
      obtain ⟨h', hrem, hperm, hWF', hSz', hlen', _⟩ := remove_spec hWF hSz hr
      have hdrain : drain (fuel + 1) h = (z.key, z.val) :: drain fuel h' := by
        simp [drain, hrem]
      have hih := ih h' hWF' hSz' (by omega)
      have hk : kvs h = (z.key, z.val) ::
          ((entriesF z.children).map (fun e => e.2) ++
            (entriesL rest).map (fun e => e.2)) := by
        simp [kvs, hr, entriesT_expand z]
      constructor
      · rw [hdrain]
        refine (List.Perm.cons _ hih.1).trans ?_
        have h2 : (kvs h').Perm
            ((entriesL rest).map (fun e => e.2) ++
              (entriesF z.children).map (fun e => e.2)) := by
          have h3 := hperm.map (fun e : Nat × K × V => e.2)
          simpa [kvs] using h3
        refine (List.Perm.cons _ h2).trans ?_
        rw [hk]
        exact List.Perm.cons _ List.perm_append_comm
      · rw [hdrain]
        simp only [List.map_cons]
        refine List.sorted_cons.mpr ⟨?_, hih.2⟩
        intro b hb
        obtain ⟨kv, hkv, rfl⟩ := List.mem_map.mp hb
        have hkv' : kv ∈ kvs h' := hih.1.subset hkv
        obtain ⟨e, he, rfl⟩ := List.mem_map.mp hkv'
        have he2 : e ∈ entriesL rest ++ entriesF z.children := hperm.subset he
        have he3 : e ∈ entriesL h.roots := by
          rw [hr, entriesL_cons, entriesT_expand z]
          rcases List.mem_append.mp he2 with h4 | h4
          · exact List.mem_append_right _ h4
          · exact List.mem_append_left _ (List.mem_cons_of_mem _ h4)
        exact rootsWF_head_le hWF hr e he3

theorem foldl_insert_spec (l : List (K × V)) :
    ∀ h : fibonacci_heap K V, rootsWF h → sizeInv h →
      rootsWF (l.foldl (fun h kv => (insert h kv.1 kv.2).2) h) ∧
      sizeInv (l.foldl (fun h kv => (insert h kv.1 kv.2).2) h) ∧
      (kvs (l.foldl (fun h kv => (insert h kv.1 kv.2).2) h)).Perm (l ++ kvs h) ∧
      (l.foldl (fun h kv => (insert h kv.1 kv.2).2) h).len = h.len + l.length := by
  induction l with
  | nil =>
    intro h hWF hSz
    exact ⟨hWF, hSz, by simpa using List.Perm.refl (kvs h), by simp⟩
  | cons kv rest ih =>
    intro h hWF hSz
    simp only [List.foldl_cons]
    obtain ⟨hWF', hSz', hperm', hlen'⟩ :=
      ih _ (insert_rootsWF hWF kv.1 kv.2) (insert_sizeInv hSz kv.1 kv.2)
    refine ⟨hWF', hSz', ?_, ?_⟩
    · refine hperm'.trans ?_
      have h1 : (kvs (insert h kv.1 kv.2).2).Perm (kv :: kvs h) := by
        have h2 := (insert_entries h kv.1 kv.2).map (fun e : Nat × K × V => e.2)
        simpa [kvs] using h2
      refine (List.Perm.append_left rest h1).trans ?_
      exact List.perm_middle
    · rw [hlen', insert_snd_len]
      simp only [List.length_cons]
      omega

theorem ctor_loop_eq (l : List (K × V)) :
    ∀ h : fibonacci_heap K V,
      ctor_loop l h = l.foldl (fun h kv => (insert h kv.1 kv.2).2) h := by
  induction l with
  | nil => intro h; rfl
  | cons kv rest ih =>
    intro h
    simp only [ctor_loop, List.foldl_cons]
    exact ih _

@[simp] theorem sizeT_mk (i : Nat) (k : K) (v : V) (m : Bool) (cs : Forest K V) :
    sizeT (FTree.mk i k v m cs) = sizeF cs + 1 := by
  simp [sizeT, sizeF]

@[simp] theorem sizeF_nil : sizeF (Forest.nil : Forest K V) = 0 := rfl

@[simp] theorem sizeF_cons (t : FTree K V) (ts : Forest K V) :
    sizeF (Forest.cons t ts) = sizeT t + sizeF ts := by
  simp [sizeF, sizeT]

@[simp] theorem sizeL_nil : sizeL ([] : List (FTree K V)) = 0 := rfl

@[simp] theorem sizeL_cons (t : FTree K V) (ts : List (FTree K V)) :
    sizeL (t :: ts) = sizeT t + sizeL ts := by
  simp [sizeL, sizeT]

@[simp] theorem sizeL_append (l₁ l₂ : List (FTree K V)) :
    sizeL (l₁ ++ l₂) = sizeL l₁ + sizeL l₂ := by
  simp [sizeL]

@[simp] theorem sizeOpt_none : sizeOpt (none : Option (FTree K V)) = 0 := rfl

@[simp] theorem sizeOpt_some (t : FTree K V) : sizeOpt (some t) = sizeT t := rfl

@[simp] theorem entriesOpt_none : entriesOpt (none : Option (FTree K V)) = [] := rfl

@[simp] theorem entriesOpt_some (t : FTree K V) : entriesOpt (some t) = entriesT t := rfl

@[simp] theorem sizeT_clearMark (t : FTree K V) : sizeT t.clearMark = sizeT t := by
  simp [sizeT]

@[simp] theorem sizeL_promote (f : Forest K V) : sizeL (promote f) = sizeF f := by
  simp [sizeL, sizeF]

mutual
theorem dkTree_size (n : Nat) (k : K) (pk : Option K) (t : FTree K V)
    (ot : Option (FTree K V)) (cuts : List (FTree K V))
    (hd : dkTree n k pk t = some (ot, cuts)) :
    sizeOpt ot + sizeL cuts = sizeT t := by
  match t with
  | .mk i tk v m cs =>
    simp only [dkTree] at hd
    by_cases hin : i = n
    · rw [if_pos hin] at hd
      cases pk with
      | none =>
        simp at hd
        obtain ⟨rfl, rfl⟩ := hd
        simp
      | some pkey =>
        by_cases hk : k < pkey
        · simp [hk] at hd
          obtain ⟨rfl, rfl⟩ := hd
          simp
        · simp [hk] at hd
          obtain ⟨rfl, rfl⟩ := hd
          simp
    · rw [if_neg hin] at hd
      cases hf : dkForest n k tk cs with
      | none =>
        rw [hf] at hd
        simp at hd
      | some res =>
        obtain ⟨cs', cuts0, lost⟩ := res
        rw [hf] at hd
        have hrec := dkForest_size n k tk cs cs' cuts0 lost hf
        cases lost with
        | false =>
          simp at hd
          obtain ⟨rfl, rfl⟩ := hd
          simp only [sizeOpt_some, sizeT_mk]
          omega
        | true =>
          cases pk with
          | none =>
            simp at hd
            obtain ⟨rfl, rfl⟩ := hd
            simp only [sizeOpt_some, sizeT_mk]
            omega
          | some pkey =>
            cases m with
            | true =>
              simp at hd
              obtain ⟨rfl, rfl⟩ := hd
              simp only [sizeOpt_none, sizeL_cons, sizeT_mk]
              omega
            | false =>
              simp at hd
              obtain ⟨rfl, rfl⟩ := hd
              simp only [sizeOpt_some, sizeT_mk]
              omega

theorem dkForest_size (n : Nat) (k : K) (pkey : K) (f : Forest K V)
    (f' : Forest K V) (cuts : List (FTree K V)) (lost : Bool)
    (hd : dkForest n k pkey f = some (f', cuts, lost)) :
    sizeF f' + sizeL cuts = sizeF f := by
  match f with
  | .nil => simp [dkForest] at hd
  | .cons t ts =>
    simp only [dkForest] at hd
    cases ht : dkTree n k (some pkey) t with
    | some res =>
      obtain ⟨ot, cuts0⟩ := res
      rw [ht] at hd
      have hrec := dkTree_size n k (some pkey) t ot cuts0 ht
      cases ot with
      | some t' =>
        simp at hd
        obtain ⟨rfl, rfl, rfl⟩ := hd
        simp only [sizeF_cons, sizeOpt_some] at hrec ⊢
        omega
      | none =>
        simp at hd
        obtain ⟨rfl, rfl, rfl⟩ := hd
        simp only [sizeOpt_none] at hrec
        simp only [sizeF_cons]
        omega
    | none =>
      rw [ht] at hd
      cases hts : dkForest n k pkey ts with
      | none =>
        rw [hts] at hd
        simp at hd
      | some res =>
        obtain ⟨ts', cuts0, lost0⟩ := res
        rw [hts] at hd
        have hrec := dkForest_size n k pkey ts ts' cuts0 lost0 hts
        simp at hd
        obtain ⟨rfl, rfl, rfl⟩ := hd
        simp only [sizeF_cons] at hrec ⊢
        omega
end

theorem dkRoots_size (n : Nat) (k : K) (l : List (FTree K V)) :
    sizeL (dkRoots n k l) = sizeL l := by
  induction l with
  | nil => rfl
  | cons t ts ih =>
    simp only [dkRoots]
    cases hd : dkTree n k none t with
    | none => simp [ih]
    | some res =>
      obtain ⟨ot, cuts⟩ := res
      have hrec := dkTree_size n k none t ot cuts hd
      cases ot with
      | none =>
        simp only [sizeOpt_none] at hrec
        simp only [sizeL_append, sizeL_cons]
        omega
      | some t' =>
        simp only [sizeOpt_some] at hrec
        simp only [sizeL_cons, sizeL_append]
        omega

theorem splitAtId_perm {i : Nat} {l : List (FTree K V)} {t : FTree K V}
    {ts : List (FTree K V)} (h : splitAtId i l = some (t, ts)) :
    (t :: ts).Perm l := by
  induction l generalizing t ts with
  | nil => simp [splitAtId] at h
  | cons u us ih =>
    simp only [splitAtId] at h
    by_cases hu : u.id = i
    · rw [if_pos hu] at h
      simp only [Option.some.injEq, Prod.mk.injEq] at h
      obtain ⟨rfl, rfl⟩ := h
      exact List.Perm.refl _
    · rw [if_neg hu] at h
      cases hs : splitAtId i us with
      | none => rw [hs] at h; simp at h
      | some p =>
        obtain ⟨t0, ts0⟩ := p
        rw [hs] at h
        simp at h
        obtain ⟨rfl, rfl⟩ := h
        exact (List.Perm.swap u t0 ts0).trans ((ih hs).cons u)

theorem promoteId_perm (i : Nat) (l : List (FTree K V)) :
    (promoteId i l).Perm l := by
  unfold promoteId
  cases hs : splitAtId i l with
  | none => exact List.Perm.refl _
  | some p =>
    obtain ⟨t, ts⟩ := p
    exact splitAtId_perm hs

theorem decrease_key_sizeInv {h : fibonacci_heap K V} (hSz : sizeInv h)
    (n : node K V) (k : K) : sizeInv (decrease_key h n k).2 := by
  unfold decrease_key
  cases hg : getKey h n.id with
  | none => exact hSz
  | some k0 =>
    dsimp only
    by_cases hk : k0 < k
    · rw [if_pos hk]
      exact hSz
    · rw [if_neg hk]
      have hs := dkRoots_size n.id k h.roots
      cases hr : dkRoots n.id k h.roots with
      | nil =>
        rw [hr] at hs
        simp only [sizeL_nil] at hs
        simp only [sizeInv, len_mk, roots_mk, sizeL_nil]
        rw [hSz, ← hs]
      | cons m rest =>
        rw [hr] at hs
        by_cases hm : k < m.key
        · simp only [hm, if_true, sizeInv, len_mk, roots_mk]
          have hlen : sizeL (promoteId n.id (m :: rest)) = sizeL (m :: rest) := by
            simpa [sizeL] using
              (entriesL_perm (promoteId_perm n.id (m :: rest))).length_eq
          rw [hSz, hlen, hs]
        · simp only [hm, if_false, sizeInv, len_mk, roots_mk]
          rw [hSz, hs]

mutual
theorem delT_entries (n : Nat) (t : FTree K V) (ot : Option (FTree K V))
    (proms : List (FTree K V)) (kv : K × V)
    (hd : delT n t = some (ot, proms, kv)) :
    (entriesT t).Perm ((n, kv) :: (entriesOpt ot ++ entriesL proms)) := by
  match t with
  | .mk i k v m cs =>
    simp only [delT] at hd
    by_cases hin : i = n
    · rw [if_pos hin] at hd
      simp at hd
      obtain ⟨rfl, rfl, rfl⟩ := hd
      subst hin
      simp
    · rw [if_neg hin] at hd
      cases hf : delF n cs with
      | none => rw [hf] at hd; simp at hd
      | some res =>
        obtain ⟨cs', proms0, kv0⟩ := res
        rw [hf] at hd
        simp at hd
        obtain ⟨rfl, rfl, rfl⟩ := hd
        have hrec := delF_entries n cs cs' proms0 kv0 hf
        refine (List.Perm.cons (i, k, v) hrec).trans ?_
        exact List.Perm.swap (n, kv0) (i, k, v) _

theorem delF_entries (n : Nat) (f : Forest K V) (f' : Forest K V)
    (proms : List (FTree K V)) (kv : K × V)
    (hd : delF n f = some (f', proms, kv)) :
    (entriesF f).Perm ((n, kv) :: (entriesF f' ++ entriesL proms)) := by
  match f with
  | .nil => simp [delF] at hd
  | .cons t ts =>
    simp only [delF] at hd
    cases ht : delT n t with
    | some res =>
      obtain ⟨ot, proms0, kv0⟩ := res
      rw [ht] at hd
      have hrec := delT_entries n t ot proms0 kv0 ht
      cases ot with
      | none =>
        simp at hd
        obtain ⟨rfl, rfl, rfl⟩ := hd
        simp only [entriesOpt_none, List.nil_append] at hrec
        simp only [entriesF_cons]
        refine (hrec.append_right _).trans ?_
        exact List.Perm.cons _ List.perm_append_comm
      | some t' =>
        simp at hd
        obtain ⟨rfl, rfl, rfl⟩ := hd
        simp only [entriesOpt_some] at hrec
        simp only [entriesF_cons]
        refine (hrec.append_right _).trans (List.Perm.cons _ ?_)
        simp only [List.append_eq, List.append_assoc]
        exact List.Perm.append_left _ List.perm_append_comm
    | none =>
      rw [ht] at hd
      cases hts : delF n ts with
      | none => rw [hts] at hd; simp at hd
      | some res =>
        obtain ⟨ts', proms0, kv0⟩ := res
        rw [hts] at hd
        simp at hd
        obtain ⟨rfl, rfl, rfl⟩ := hd
        have hrec := delF_entries n ts ts' proms0 kv0 hts
        simp only [entriesF_cons]
        refine ((List.Perm.append_left _ hrec).trans List.perm_middle).trans ?_
        simp only [List.append_assoc]
        exact List.Perm.refl _
end

theorem delL_entries (n : Nat) (l : List (FTree K V)) (rem proms : List (FTree K V))
    (kv : K × V) (hd : delL n l = some (rem, proms, kv)) :
    (entriesL l).Perm ((n, kv) :: (entriesL rem ++ entriesL proms)) := by
  induction l generalizing rem proms kv with
  | nil => simp [delL] at hd
  | cons t ts ih =>
    simp only [delL] at hd
    cases ht : delT n t with
    | some res =>
      obtain ⟨ot, proms0, kv0⟩ := res
      rw [ht] at hd
      have hrec := delT_entries n t ot proms0 kv0 ht
      cases ot with
      | none =>
        simp at hd
        obtain ⟨rfl, rfl, rfl⟩ := hd
        simp only [entriesOpt_none, List.nil_append] at hrec
        simp only [entriesL_cons]
        refine (hrec.append_right _).trans ?_
        exact List.Perm.cons _ List.perm_append_comm
      | some t' =>
        simp at hd
        obtain ⟨rfl, rfl, rfl⟩ := hd
        simp only [entriesOpt_some] at hrec
        simp only [entriesL_cons]
        refine (hrec.append_right _).trans (List.Perm.cons _ ?_)
        simp only [List.append_eq, List.append_assoc]
        exact List.Perm.append_left _ List.perm_append_comm
    | none =>
      rw [ht] at hd
      cases hts : delL n ts with
      | none => rw [hts] at hd; simp at hd
      | some res =>
        obtain ⟨ts', proms0, kv0⟩ := res
        rw [hts] at hd
        simp at hd
        obtain ⟨rfl, rfl, rfl⟩ := hd
        have hrec := ih ts' proms0 kv0 hts
        simp only [entriesL_cons]
        refine ((List.Perm.append_left _ hrec).trans List.perm_middle).trans ?_
        simp only [List.append_assoc]
        exact List.Perm.refl _

mutual
theorem delT_none_not_mem (n : Nat) (t : FTree K V) (hd : delT n t = none) :
    n ∉ (entriesT t).map (fun e => e.1) := by
  match t with
  | .mk i k v m cs =>
    simp only [delT] at hd
    by_cases hin : i = n
    · rw [if_pos hin] at hd
      simp at hd
    · rw [if_neg hin] at hd
      cases hf : delF n cs with
      | some res =>
        obtain ⟨a, b, c⟩ := res
        rw [hf] at hd
        simp at hd
      | none =>
        have hrec := delF_none_not_mem n cs hf
        simp only [entriesT_mk, List.map_cons, List.mem_cons]
        rintro (h1 | h1)
        · exact hin h1.symm
        · exact hrec h1

theorem delF_none_not_mem (n : Nat) (f : Forest K V) (hd : delF n f = none) :
    n ∉ (entriesF f).map (fun e => e.1) := by
  match f with
  | .nil => simp
  | .cons t ts =>
    simp only [delF] at hd
    cases ht : delT n t with
    | some res =>
      obtain ⟨a, b, c⟩ := res
      rw [ht] at hd
      cases a
      · simp at hd
      · simp at hd
    | none =>
      rw [ht] at hd
      cases hts : delF n ts with
      | some res =>
        obtain ⟨a, b, c⟩ := res
        rw [hts] at hd
        simp at hd
      | none =>
        have h1 := delT_none_not_mem n t ht
        have h2 := delF_none_not_mem n ts hts
        simp only [entriesF_cons, List.map_append, List.mem_append]
        rintro (h3 | h3)
        · exact h1 h3
        · exact h2 h3
end

theorem delL_none_not_mem (n : Nat) (l : List (FTree K V)) (hd : delL n l = none) :
    n ∉ (entriesL l).map (fun e => e.1) := by
  induction l with
  | nil => simp
  | cons t ts ih =>
    simp only [delL] at hd
    cases ht : delT n t with
    | some res =>
      obtain ⟨a, b, c⟩ := res
      rw [ht] at hd
      cases a
      · simp at hd
      · simp at hd
    | none =>
      rw [ht] at hd
      cases hts : delL n ts with
      | some res =>
        obtain ⟨a, b, c⟩ := res
        rw [hts] at hd
        simp at hd
      | none =>
        have h1 := delT_none_not_mem n t ht
        have h2 := ih hts
        simp only [entriesL_cons, List.map_append, List.mem_append]
        rintro (h3 | h3)
        · exact h1 h3
        · exact h2 h3

theorem delL_mem_isSome (n : Nat) (l : List (FTree K V))
    (hm : n ∈ (entriesL l).map (fun e => e.1)) :
    ∃ rem proms kv, delL n l = some (rem, proms, kv) := by
  cases hd : delL n l with
  | none => exact absurd hm (delL_none_not_mem n l hd)
  | some res =>
    obtain ⟨rem, proms, kv⟩ := res
    exact ⟨rem, proms, kv, rfl⟩

theorem getKey_eq_none {h : fibonacci_heap K V} {i : Nat}
    (hni : i ∉ (entriesL h.roots).map (fun e => e.1)) : getKey h i = none := by
  have hfind : (entriesL h.roots).find? (fun e => e.1 == i) = none := by
    rw [List.find?_eq_none]
    intro x hx
    simp only [beq_iff_eq]
    intro hxi
    exact hni (List.mem_map.mpr ⟨x, hx, hxi⟩)
  simp [getKey, hfind]

theorem remove_node_found {h : fibonacci_heap K V} {n : node K V}
    {rem proms : List (FTree K V)} {kv : K × V}
    (hd : delL n.id h.roots = some (rem, proms, kv)) :
    (remove_node h n).1 = Except.ok n ∧
    (entriesL (remove_node h n).2.roots).Perm (entriesL rem ++ entriesL proms) ∧
    (remove_node h n).2.len = h.len - 1 ∧ (remove_node h n).2.next = h.next := by
  unfold remove_node
  rw [hd]
  dsimp only
  cases hext : extractMinTree (consolidate (rem ++ proms)) with
  | none =>
    have hnil : consolidate (rem ++ proms) = [] := extractMinTree_eq_none.mp hext
    have hp := consolidate_entries (rem ++ proms)
    rw [hnil] at hp
    have hz : entriesL (rem ++ proms) = [] := hp.symm.eq_nil
    refine ⟨rfl, ?_, rfl, rfl⟩
    rw [← entriesL_append, hz]
    simp
  | some p =>
    obtain ⟨m, rest⟩ := p
    refine ⟨rfl, ?_, rfl, rfl⟩
    refine (entriesL_perm (extractMinTree_perm hext)).trans ?_
    refine (consolidate_entries _).trans ?_
    rw [entriesL_append]

theorem remove_node_sizeInv {h : fibonacci_heap K V} (hSz : sizeInv h)
    (n : node K V) : sizeInv (remove_node h n).2 := by
  cases hd : delL n.id h.roots with
  | none =>
    unfold remove_node
    rw [hd]
    exact hSz
  | some res =>
    obtain ⟨rem, proms, kv⟩ := res
    obtain ⟨_, hperm, hlen, _⟩ := remove_node_found hd
    have hsz1 := (delL_entries n.id h.roots rem proms kv hd).length_eq
    simp only [List.length_cons, List.length_append] at hsz1
    have h2 := hperm.length_eq
    simp only [List.length_append] at h2
    simp only [sizeInv, sizeL] at hSz ⊢
    rw [hlen]
    omega

theorem meld_roots_perm (h g : fibonacci_heap K V) :
    ((meld h g).1.roots).Perm (h.roots ++ g.roots) := by
  unfold meld
  cases hh : h.roots with
  | nil => simp
  | cons hm hr =>
    cases hg : g.roots with
    | nil => simp
    | cons gm gr =>
      dsimp only
      by_cases hk : gm.key < hm.key
      · rw [if_pos hk]
        refine (List.Perm.cons gm List.perm_append_comm).trans ?_
        exact List.perm_middle.symm
      · rw [if_neg hk]
        exact List.Perm.refl _

theorem remove_sizeInv {h : fibonacci_heap K V} (hSz : sizeInv h)
    {kv : K × V} {h' : fibonacci_heap K V} (hrem : remove h = some (kv, h')) :
    sizeInv h' := by
  unfold remove at hrem
  cases hr : h.roots with
  | nil => rw [hr] at hrem; simp at hrem
  | cons z rest =>
    rw [hr] at hrem
    dsimp only at hrem
    have hSz' : h.len = sizeF z.children + 1 + sizeL rest := by
      simp only [sizeInv, hr, sizeL_cons] at hSz
      cases z
      simp only [sizeT_mk] at hSz
      simp only [FTree.children_mk]
      omega
    by_cases h0 : h.len - 1 = 0
    · rw [if_pos h0] at hrem
      simp at hrem
      obtain ⟨-, rfl⟩ := hrem
      simp [sizeInv]
    · rw [if_neg h0] at hrem
      cases hext : extractMinTree (consolidate (rest ++ promote z.children)) with
      | none =>
        rw [hext] at hrem
        simp at hrem
        obtain ⟨-, rfl⟩ := hrem
        have hnil := extractMinTree_eq_none.mp hext
        have hp := consolidate_entries (rest ++ promote z.children)
        rw [hnil] at hp
        have hz := hp.symm.eq_nil
        have hzl : sizeL (rest ++ promote z.children) = 0 := by
          simp [sizeL, hz]
        simp only [sizeL_append, sizeL_promote] at hzl
        simp only [sizeInv, roots_mk, len_mk, sizeL_nil]
        omega
      | some p =>
        obtain ⟨m, rest'⟩ := p
        rw [hext] at hrem
        simp at hrem
        obtain ⟨-, rfl⟩ := hrem
        have h1 := (entriesL_perm (extractMinTree_perm hext)).length_eq
        have h2 := (consolidate_entries (rest ++ promote z.children)).length_eq
        simp only [sizeInv, roots_mk, len_mk]
        simp only [sizeL]
        rw [h1, h2]
        simp only [entriesL_append, List.length_append, entriesL_promote]
        simp only [sizeL, sizeF] at hSz' ⊢
        omega

theorem decrease_key_stale {h : fibonacci_heap K V} {n : node K V} {k : K}
    (hg : getKey h n.id = none) :
    decrease_key h n k = (Except.error FibError.StaleHandle, h) := by
  unfold decrease_key
  rw [hg]

theorem remove_node_stale {h : fibonacci_heap K V} {n : node K V}
    (hd : delL n.id h.roots = none) :
    remove_node h n = (Except.error FibError.StaleHandle, h) := by
  unfold remove_node
  rw [hd]

/-- C1: inserting a finite multiset S of key and value pairs into an initially
empty heap via insert and then calling extract_min (remove) until the heap is
empty yields exactly the multiset S, with keys in nondecreasing order under
the comparator. -/
theorem claim_sort_law {K V : Type} [LinearOrder K] (l : List (K × V)) :
    (extractAll (insertList l)).Perm l ∧
      List.Sorted (fun a b : K => a ≤ b)
        ((extractAll (insertList l)).map Prod.fst) := by
  obtain ⟨hWF, hSz, hkvs, hlen⟩ :=
    foldl_insert_spec l emptyHeap emptyHeap_rootsWF emptyHeap_sizeInv
  have hd := drain_spec (insertList l).len (insertList l) hWF hSz rfl
  constructor
  · refine hd.1.trans ?_
    refine hkvs.trans ?_
    simp [kvs, emptyHeap]
  · exact hd.2

/-- C8: the heap built by the initializer-list constructor embedded from the
source equals the heap obtained by constructing an empty heap and then
inserting each pair in sequence order, as the spec words it; equality of the
whole heap state subsumes equality of observable behaviour. -/
theorem claim_ctor_refines {K V : Type} [LinearOrder K] (l : List (K × V)) :
    ofList l = insertList l := by
  unfold ofList insertList
  exact ctor_loop_eq l emptyHeap

/-- C2: evaluating the copy constructor embedded from the source on a heap
holding the single pair (0, 0) runs into the missing return statement of
duplicate_nodes, so the construction is undefined instead of returning a
well-defined isomorphic copy. -/
theorem claim_copy_ctor_undefined :
    copy_ctor (insert (emptyHeap : fibonacci_heap Int Int) 0 0).2 =
      Except.error CppUndef.noReturnPath := rfl

/-- C10: evaluating the self copy-assignment embedded from the source on a
heap holding the single pair (0, 0) first breaks the root ring through the
destructor call and then runs into the missing return of duplicate_nodes, so
the assignment is undefined instead of leaving the heap unchanged. -/
theorem claim_self_assign_undefined :
    operator_assign_self (insert (emptyHeap : fibonacci_heap Int Int) 0 0).2 =
      Except.error CppUndef.noReturnPath := rfl

/-- C3 counterexample: top embedded from the source applied to the empty heap
dereferences the null min pointer, a failure, not a none result as the claim
states. -/
theorem claim_top_empty_counterexample :
    top (emptyHeap : fibonacci_heap Int Int) =
      Except.error CppUndef.nullDeref := rfl

/-- C3 amended: on every empty heap, extract_min (remove, modelled from the
spec) returns a none result, while top (embedded from the source) fails by
dereferencing the null min pointer rather than returning a none result; top
takes the heap and produces only a handle, so it does not mutate the heap. -/
theorem claim_empty_heap_ops {K V : Type} [LinearOrder K]
    (h : fibonacci_heap K V) (he : h.roots = []) :
    remove h = none ∧ top h = Except.error CppUndef.nullDeref := by
  constructor
  · simp [remove, he]
  · simp [top, he]

/-- C3 witness: the amended statement evaluated at the concrete empty heap. -/
theorem claim_empty_heap_ops_witness :
    remove (emptyHeap : fibonacci_heap Int Int) = none ∧
      top (emptyHeap : fibonacci_heap Int Int) =
        Except.error CppUndef.nullDeref :=
  claim_empty_heap_ops emptyHeap rfl

/-- C4: meld modelled from the spec splices the root ring of G into the root
ring of H, keeps whichever of the two previous minima has the smaller key at
the min position, adds the length of G to the length of H, leaves G empty,
and every handle identity of G (and of H) is a valid handle identity of the
melded heap. -/
theorem claim_meld_spec {K V : Type} [LinearOrder K] (h g : fibonacci_heap K V) :
    ((meld h g).1.roots).Perm (h.roots ++ g.roots) ∧
    (meld h g).1.len = h.len + g.len ∧
    (meld h g).2.roots = [] ∧ (meld h g).2.len = 0 ∧
    (∀ i ∈ ids g, i ∈ ids (meld h g).1) ∧
    (∀ i ∈ ids h, i ∈ ids (meld h g).1) ∧
    (h.roots = [] → (meld h g).1.roots = g.roots) ∧
    (g.roots = [] → (meld h g).1.roots = h.roots) ∧
    (∀ hm hr gm gr, h.roots = hm :: hr → g.roots = gm :: gr →
      (meld h g).1.roots.head? = some (if gm.key < hm.key then gm else hm)) := by
  have hperm := meld_roots_perm h g
  have hids := (entriesL_perm hperm).map (fun e : Nat × K × V => e.1)
  refine ⟨hperm, rfl, rfl, rfl, ?_, ?_, ?_, ?_, ?_⟩
  · intro i hi
    refine hids.symm.subset ?_
    simp only [entriesL_append, List.map_append, List.mem_append]
    right
    exact hi
  · intro i hi
    refine hids.symm.subset ?_
    simp only [entriesL_append, List.map_append, List.mem_append]
    left
    exact hi
  · intro hh
    simp [meld, hh]
  · intro hg
    cases hh : h.roots with
    | nil => simp [meld, hh, hg]
    | cons hm hr => simp [meld, hh, hg]
  · intro hm hr gm gr hh hg
    by_cases hk : gm.key < hm.key
    · simp [meld, hh, hg, hk]
    · simp [meld, hh, hg, hk]

/-- C4 witness: melding the singleton heaps holding keys 5 and 3 yields the
spliced root ring, length 2, the min at key 3, an emptied source heap, and
the handle identity of the source transferred. -/
theorem claim_meld_spec_witness :
    ((meld (insert (emptyHeap : fibonacci_heap Int Int) 5 0).2
        (insert (emptyHeap : fibonacci_heap Int Int) 3 0).2).1.roots).Perm
      ((insert (emptyHeap : fibonacci_heap Int Int) 5 0).2.roots ++
        (insert (emptyHeap : fibonacci_heap Int Int) 3 0).2.roots) ∧
    (meld (insert (emptyHeap : fibonacci_heap Int Int) 5 0).2
        (insert (emptyHeap : fibonacci_heap Int Int) 3 0).2).1.roots.head? =
      some (FTree.mk 0 3 0 false Forest.nil) := by
  have hc := claim_meld_spec (insert (emptyHeap : fibonacci_heap Int Int) 5 0).2
    (insert (emptyHeap : fibonacci_heap Int Int) 3 0).2
  refine ⟨hc.1, ?_⟩
  have h9 := hc.2.2.2.2.2.2.2.2 (FTree.mk 0 5 0 false Forest.nil) []
    (FTree.mk 0 3 0 false Forest.nil) [] rfl rfl
  rw [h9]
  norm_num [FTree.key_mk]

/-- C5: decrease_key through a valid handle with a worsening key (the stored
key of the node is smaller than the new key, the condition
cmp(new_key, h.key) > 0 of the spec) fails with InvalidKey and the heap is
left unchanged. -/
theorem claim_decrease_key_invalid {K V : Type} [LinearOrder K]
    (h : fibonacci_heap K V) (n : node K V) (k k0 : K)
    (hget : getKey h n.id = some k0) (hlt : k0 < k) :
    decrease_key h n k = (Except.error FibError.InvalidKey, h) := by
  unfold decrease_key
  rw [hget]
  dsimp only
  rw [if_pos hlt]

/-- C5 witness: on the singleton heap holding (3, 7), decreasing the key of
its node to 5 is a worsening request and fails with InvalidKey, leaving the
heap unchanged. -/
theorem claim_decrease_key_invalid_witness :
    decrease_key (insert (emptyHeap : fibonacci_heap Int Int) 3 7).2 ⟨0, 3, 7⟩ 5 =
      (Except.error FibError.InvalidKey,
        (insert (emptyHeap : fibonacci_heap Int Int) 3 7).2) :=
  claim_decrease_key_invalid _ _ 5 3 rfl (by norm_num)

/-- C6: an operation through a handle whose node has already been removed is
reported as StaleHandle with the heap left unchanged: on a heap with distinct
node identities, after remove(node) succeeds through a handle, both
decrease_key and remove(node) through that same handle report StaleHandle and
return the heap unmodified. -/
theorem claim_stale_handle {K V : Type} [LinearOrder K]
    (h : fibonacci_heap K V) (n : node K V) (k : K)
    (hnd : (ids h).Nodup) (hin : n.id ∈ ids h) :
    (remove_node h n).1 = Except.ok n ∧
    decrease_key (remove_node h n).2 n k =
      (Except.error FibError.StaleHandle, (remove_node h n).2) ∧
    remove_node (remove_node h n).2 n =
      (Except.error FibError.StaleHandle, (remove_node h n).2) := by
  obtain ⟨rem, proms, kv, hd⟩ := delL_mem_isSome n.id h.roots hin
  obtain ⟨hok, hperm, hlen, hnext⟩ := remove_node_found hd
  have hids : (ids h).Perm (n.id :: ((entriesL rem).map (fun e => e.1) ++
      (entriesL proms).map (fun e => e.1))) := by
    have h1 := (delL_entries n.id h.roots rem proms kv hd).map
      (fun e : Nat × K × V => e.1)
    simpa [ids, List.map_append] using h1
  have hnodup2 := hids.nodup_iff.mp hnd
  have hnotin := (List.nodup_cons.mp hnodup2).1
  have hnot2 : n.id ∉ (entriesL (remove_node h n).2.roots).map (fun e => e.1) := by
    intro hmem
    have h2 := (hperm.map (fun e : Nat × K × V => e.1)).subset hmem
    rw [List.map_append] at h2
    exact hnotin h2
  refine ⟨hok, ?_, ?_⟩
  · exact decrease_key_stale (getKey_eq_none hnot2)
  · have hdl : delL n.id (remove_node h n).2.roots = none := by
      cases hdl2 : delL n.id (remove_node h n).2.roots with
      | none => rfl
      | some res =>
        obtain ⟨a, b, c⟩ := res
        have h3 := delL_entries n.id _ a b c hdl2
        have h4 : (n.id, c) ∈ entriesL (remove_node h n).2.roots :=
          h3.symm.subset (List.mem_cons_self _ _)
        exact absurd (List.mem_map.mpr ⟨(n.id, c), h4, rfl⟩) hnot2
    exact remove_node_stale hdl

/-- C6 witness: on the two-element heap built from (3, 0) and (1, 1), whose
node identities are distinct, removing the node holding key 3 through its
handle succeeds, and afterwards decrease_key and remove through that handle
report StaleHandle and leave the heap unchanged. -/
theorem claim_stale_handle_witness :
    (remove_node (ofList ([(3, 0), (1, 1)] : List (Int × Int))) ⟨0, 3, 0⟩).1 =
      Except.ok ⟨0, 3, 0⟩ ∧
    decrease_key
        (remove_node (ofList ([(3, 0), (1, 1)] : List (Int × Int))) ⟨0, 3, 0⟩).2
        ⟨0, 3, 0⟩ 2 =
      (Except.error FibError.StaleHandle,
        (remove_node (ofList ([(3, 0), (1, 1)] : List (Int × Int))) ⟨0, 3, 0⟩).2) ∧
    remove_node
        (remove_node (ofList ([(3, 0), (1, 1)] : List (Int × Int))) ⟨0, 3, 0⟩).2
        ⟨0, 3, 0⟩ =
      (Except.error FibError.StaleHandle,
        (remove_node (ofList ([(3, 0), (1, 1)] : List (Int × Int))) ⟨0, 3, 0⟩).2) :=
  claim_stale_handle (ofList ([(3, 0), (1, 1)] : List (Int × Int))) ⟨0, 3, 0⟩ 2
    (by decide) (by decide)

/-- C7: after every public operation the stored length (_size, returned by
size) equals the total number of nodes reachable from the root list, summed
recursively over children: the size invariant is preserved by insert, the
node insert overload, the initializer-list constructor, extract_min, meld
(both resulting heaps), decrease_key, remove(node), and every defined
execution of the copy constructor and of the self copy-assignment; top takes
the heap and returns only a handle, so it cannot change the heap. -/
theorem claim_size_invariant {K V : Type} [LinearOrder K]
    (h g : fibonacci_heap K V) (k : K) (v : V) (n : node K V)
    (l : List (K × V)) :
    (sizeInv h → sizeInv (insert h k v).2) ∧
    (sizeInv h → sizeInv (insert_node h n).2) ∧
    sizeInv (ofList l) ∧
    (sizeInv h → ∀ kv h', remove h = some (kv, h') → sizeInv h') ∧
    (sizeInv h → sizeInv g → sizeInv (meld h g).1 ∧ sizeInv (meld h g).2) ∧
    (sizeInv h → sizeInv (decrease_key h n k).2) ∧
    (sizeInv h → sizeInv (remove_node h n).2) ∧
    (sizeInv h → ∀ h', copy_ctor h = Except.ok h' → sizeInv h') ∧
    (sizeInv h → ∀ h', operator_assign_self h = Except.ok h' → sizeInv h') := by
  refine ⟨?_, ?_, ?_, ?_, ?_, ?_, ?_, ?_, ?_⟩
  · intro hSz
    exact insert_sizeInv hSz k v
  · intro hSz
    exact insert_sizeInv hSz n.key n.data
  · have h1 : ofList l = l.foldl (fun h kv => (insert h kv.1 kv.2).2) emptyHeap := by
      unfold ofList
      exact ctor_loop_eq l emptyHeap
    rw [h1]
    exact (foldl_insert_spec l emptyHeap emptyHeap_rootsWF emptyHeap_sizeInv).2.1
  · intro hSz kv h' hrem
    exact remove_sizeInv hSz hrem
  · intro hSz hSzg
    constructor
    · have hlen : (meld h g).1.len = h.len + g.len := rfl
      have hroots := (entriesL_perm (meld_roots_perm h g)).length_eq
      simp only [sizeInv, sizeL] at hSz hSzg ⊢
      rw [hlen, hroots, entriesL_append, List.length_append]
      omega
    · exact rfl
  · intro hSz
    exact decrease_key_sizeInv hSz n k
  · intro hSz
    exact remove_node_sizeInv hSz n
  · intro hSz h' hok
    cases hr : h.roots with
    | nil =>
      simp [copy_ctor, duplicate_nodes, hr] at hok
      subst hok
      simp only [sizeInv, hr, sizeL_nil] at hSz
      simp [sizeInv, hSz]
    | cons t ts =>
      simp [copy_ctor, duplicate_nodes, hr] at hok
  · intro hSz h' hok
    cases hr : h.roots with
    | nil =>
      simp [operator_assign_self, hr] at hok
      subst hok
      simp only [sizeInv, hr, sizeL_nil] at hSz
      simp [sizeInv, hSz]
    | cons t ts =>
      simp [operator_assign_self, hr] at hok

/-- C7 witness: the size invariant evaluated through the claim on concrete
heaps over Int for insert, the node insert overload, the list constructor,
meld, decrease_key and remove(node). -/
theorem claim_size_invariant_witness :
    sizeInv (insert (ofList ([(1, 2), (3, 4)] : List (Int × Int))) 0 0).2 ∧
    sizeInv (insert_node (ofList ([(1, 2), (3, 4)] : List (Int × Int)))
      ⟨0, 1, 2⟩).2 ∧
    sizeInv (ofList ([(1, 2), (3, 4)] : List (Int × Int))) ∧
    sizeInv (meld (ofList ([(1, 2), (3, 4)] : List (Int × Int)))
      (ofList ([(5, 6)] : List (Int × Int)))).1 ∧
    sizeInv (decrease_key (ofList ([(1, 2), (3, 4)] : List (Int × Int)))
      ⟨1, 3, 4⟩ 0).2 ∧
    sizeInv (remove_node (ofList ([(1, 2), (3, 4)] : List (Int × Int)))
      ⟨1, 3, 4⟩).2 := by
  have hc := claim_size_invariant (ofList ([(1, 2), (3, 4)] : List (Int × Int)))
    (ofList ([(5, 6)] : List (Int × Int))) (0 : Int) (0 : Int)
    (⟨1, 3, 4⟩ : node Int Int) ([(1, 2), (3, 4)] : List (Int × Int))
  have hc2 := claim_size_invariant (ofList ([(1, 2), (3, 4)] : List (Int × Int)))
    (ofList ([(5, 6)] : List (Int × Int))) (0 : Int) (0 : Int)
    (⟨0, 1, 2⟩ : node Int Int) ([(1, 2), (3, 4)] : List (Int × Int))
  refine ⟨hc.1 (by rfl), hc2.2.1 (by rfl), hc.2.2.1,
    (hc.2.2.2.2.1 (by rfl) (by rfl)).1, hc.2.2.2.2.2.1 (by rfl),
    hc.2.2.2.2.2.2.1 (by rfl)⟩

/-- C9: the node insert overload embedded from the source is exactly
insert(n.key(), n.data()); under the allocation invariant of the heap (every
node identity lies below the allocation counter, the stand-in for the
freshness of the address make_shared returns) the returned handle has a fresh
identity not in the heap, the new heap is the old forest plus one fresh leaf
carrying the key and value of n, and when n designates a node of this heap
the returned handle differs from n; the existing node is never re-attached. -/
theorem claim_insert_node {K V : Type} [LinearOrder K]
    (h : fibonacci_heap K V) (n : node K V)
    (hb : ∀ i ∈ ids h, i < h.next) :
    insert_node h n = insert h n.key n.data ∧
    (insert_node h n).1.id ∉ ids h ∧
    (entriesL (insert_node h n).2.roots).Perm
      ((h.next, n.key, n.data) :: entriesL h.roots) ∧
    (n.id ∈ ids h → (insert_node h n).1 ≠ n) := by
  refine ⟨rfl, ?_, ?_, ?_⟩
  · show (insert h n.key n.data).1.id ∉ ids h
    rw [insert_fst]
    intro hmem
    exact absurd (hb _ hmem) (lt_irrefl _)
  · exact insert_entries h n.key n.data
  · intro hmem hEq
    have h1 : (insert_node h n).1.id = h.next := rfl
    have h2 : n.id < h.next := hb _ hmem
    rw [hEq] at h1
    omega

/-- C9 witness: on the singleton heap holding (1, 2) whose only node has
identity 0 and allocation counter 1, inserting through the handle of that
node creates the fresh node with identity 1 and returns a handle different
from the given one. -/
theorem claim_insert_node_witness :
    insert_node (ofList ([(1, 2)] : List (Int × Int))) ⟨0, 1, 2⟩ =
      insert (ofList ([(1, 2)] : List (Int × Int))) 1 2 ∧
    (insert_node (ofList ([(1, 2)] : List (Int × Int))) ⟨0, 1, 2⟩).1.id ∉
      ids (ofList ([(1, 2)] : List (Int × Int))) ∧
    (entriesL (insert_node (ofList ([(1, 2)] : List (Int × Int)))
        ⟨0, 1, 2⟩).2.roots).Perm
      (((ofList ([(1, 2)] : List (Int × Int))).next, 1, 2) ::
        entriesL (ofList ([(1, 2)] : List (Int × Int))).roots) ∧
    (((⟨0, 1, 2⟩ : node Int Int).id ∈ ids (ofList ([(1, 2)] : List (Int × Int)))) →
      (insert_node (ofList ([(1, 2)] : List (Int × Int))) ⟨0, 1, 2⟩).1 ≠
        ⟨0, 1, 2⟩) :=
  claim_insert_node (ofList ([(1, 2)] : List (Int × Int))) ⟨0, 1, 2⟩ (by decide)

end fibonacci_heap

end HeapLemmas
